import Mathlib

/-!
Verification of scripts/customize_template.py.

Python strings are modelled as lists of Unicode code points (List Nat),
matching Python's view of str as a sequence of code points.  The case
functions (str.lower, str.capitalize, the character classes of the regular
expressions) are modelled on the ASCII range, which is the range the
script's inputs and replacement tables live in.  All functions are
structurally recursive so that they evaluate inside the kernel.
-/

/-- Code points of a string literal, for readable statements. -/
def pystr (s : String) : List Nat := s.data.map Char.toNat

/-- ASCII uppercase letter test, the regex class A-Z. -/
def isUpper (c : Nat) : Bool := 65 ≤ c && c ≤ 90

/-- ASCII lowercase letter test, the regex class a-z. -/
def isLower (c : Nat) : Bool := 97 ≤ c && c ≤ 122

/-- ASCII digit test, the regex class 0-9. -/
def isDigit (c : Nat) : Bool := 48 ≤ c && c ≤ 57

/-- Python regex whitespace class (ASCII part): space, tab, newline,
carriage return, vertical tab, form feed. -/
def isSpace (c : Nat) : Bool := c == 32 || c == 9 || c == 10 || c == 13 || c == 11 || c == 12

/-- One character of the separator class of the script's regexes:
hyphen, underscore, or whitespace. -/
def isSep (c : Nat) : Bool := c == 45 || c == 95 || isSpace c

/-- Python str.lower on one code point (ASCII range). -/
def lowerC (c : Nat) : Nat := if isUpper c then c + 32 else c

/-- Python str.upper (and, on ASCII, str.capitalize's first-character
titlecasing) on one code point. -/
def upperC (c : Nat) : Nat := if isLower c then c - 32 else c

/-- Python str.lower on a whole string (ASCII model). -/
def pyLower (s : List Nat) : List Nat := s.map lowerC

/-- Boolean test that the first list is a leading segment of the second. -/
def isPre {α : Type} [DecidableEq α] : List α → List α → Bool
  | [], _ => true
  | _ :: _, [] => false
  | a :: as, b :: bs => a == b && isPre as bs

/-- Boolean test that the first list is a trailing segment of the second. -/
def isSuf {α : Type} [DecidableEq α] (p q : List α) : Bool := isPre p.reverse q.reverse

/-- Boolean test that old occurs as a contiguous substring of s. -/
def occursIn (old s : List Nat) : Bool :=
  if isPre old s then true
  else match s with
    | [] => false
    | _ :: cs => occursIn old cs

/-- Semantics of re.split applied to the pattern of one-or-more separator
characters, as in to_pascal_case: maximal runs of separator characters are
delimiters, a leading or trailing run contributes an empty word, and the
split of the empty string is one empty word. -/
def splitSep : List Nat → List (List Nat)
  | [] => [[]]
  | c :: cs =>
    if isSep c then
      match cs with
      | d :: _ => if isSep d then splitSep cs else [] :: splitSep cs
      | [] => [] :: splitSep cs
    else
      match splitSep cs with
      | w :: ws => (c :: w) :: ws
      | [] => [[c]]

/-- Python str.capitalize: titlecase (here: uppercase) the first character,
lowercase all remaining characters. -/
def capitalize : List Nat → List Nat
  | [] => []
  | c :: cs => upperC c :: pyLower cs

/-- to_pascal_case from the script: split the name on runs of hyphen,
underscore or whitespace, capitalize each word, and concatenate. -/
def to_pascal_case (s : List Nat) : List Nat := ((splitSep s).map capitalize).flatten

/-- to_camel_case from the script: the PascalCase form with its first
character lowercased, or the empty string when PascalCase is empty. -/
def to_camel_case (s : List Nat) : List Nat :=
  match to_pascal_case s with
  | [] => []
  | c :: cs => lowerC c :: cs

/-- Fueled form of the first substitution of to_kebab_case, the regex
re.sub of any-character-then-uppercase-then-lowercase-run with the same
text with a hyphen inserted after the first character.  A match requires
the leading wildcard character not to be a newline (the regex dot does not
match a newline), then an uppercase letter, then at least one lowercase
letter; the lowercase run is consumed greedily and scanning resumes after
it.  The fuel argument only makes the recursion structural; it is always
called with enough fuel. -/
def sub1F : Nat → List Nat → List Nat
  | 0, s => s
  | _ + 1, [] => []
  | _ + 1, [c] => [c]
  | f + 1, c :: d :: rest =>
    if c != 10 && isUpper d && !(rest.takeWhile isLower).isEmpty then
      c :: 45 :: d :: rest.takeWhile isLower ++ sub1F f (rest.dropWhile isLower)
    else
      c :: sub1F f (d :: rest)

/-- First substitution of to_kebab_case with the fuel filled in. -/
def sub1 (s : List Nat) : List Nat := sub1F s.length s

/-- Second substitution of to_kebab_case, the regex re.sub of a
lowercase-or-digit character followed by an uppercase letter with the same
two characters separated by a hyphen; both matched characters are consumed. -/
def sub2 : List Nat → List Nat
  | [] => []
  | [c] => [c]
  | c :: d :: rest =>
    if (isLower c || isDigit c) && isUpper d then
      c :: 45 :: d :: sub2 rest
    else
      c :: sub2 (d :: rest)

/-- Fueled form of Python str.replace: replace every non-overlapping
occurrence of old with new, scanning left to right.  An empty old inserts
new before every character and at the end, as in Python.  The fuel only
makes the recursion structural. -/
def pyReplaceF : Nat → List Nat → List Nat → List Nat → List Nat
  | 0, s, _, _ => s
  | f + 1, s, old, new =>
    if old.isEmpty then
      match s with
      | [] => new
      | c :: cs => new ++ c :: pyReplaceF f cs old new
    else if isPre old s then
      new ++ pyReplaceF f (s.drop old.length) old new
    else
      match s with
      | [] => []
      | c :: cs => c :: pyReplaceF f cs old new

/-- Python str.replace with the fuel filled in. -/
def pyReplace (s old new : List Nat) : List Nat := pyReplaceF (s.length + 1) s old new

/-- Replacement of every occurrence of the single character a by b;
str.replace with a one-character search string acts characterwise. -/
def replaceC (a b : Nat) (s : List Nat) : List Nat :=
  s.map fun c => if c = a then b else c

/-- to_kebab_case from the script: the two boundary-splitting regex
substitutions, then str.lower, then replacement of underscores and then of
spaces by hyphens, in the script's order. -/
def to_kebab_case (s : List Nat) : List Nat :=
  pyReplace (pyReplace (pyLower (sub2 (sub1 s))) [95] [45]) [32] [45]

/-- to_package_name from the script: delete every separator character
(re.sub of separator runs with the empty string), then lowercase. -/
def to_package_name (s : List Nat) : List Nat :=
  pyLower (s.filter fun c => !isSep c)

/-- Python str.strip: remove leading and trailing whitespace (ASCII model). -/
def pyStrip (s : List Nat) : List Nat :=
  ((s.dropWhile isSpace).reverse.dropWhile isSpace).reverse

/-- The sequential whole-text replacement pass of replace_in_files: apply
each (old, new) entry of the ordered table to the full text, in order. -/
def applyReps (reps : List (List Nat × List Nat)) (t : List Nat) : List Nat :=
  reps.foldl (fun acc p => pyReplace acc p.1 p.2) t

/-! Definitions formalising the spec's wording, for comparison with the
functions translated from the script (refinement-style claims). -/

/-- Modelled from the spec wording of claim C1: split on separator runs,
capitalize only the first character of each word, and leave every other
character of each word exactly as given. -/
def pascalClaim (s : List Nat) : List Nat :=
  ((splitSep s).map fun w =>
    match w with
    | [] => []
    | c :: cs => upperC c :: cs).flatten

/-- Characterwise restatement of the amended C1: delete separator
characters, uppercase every character that starts a word, and lowercase
every other character.  The flag records whether the next character starts
a word. -/
def pascalFlat : Bool → List Nat → List Nat
  | _, [] => []
  | atStart, c :: cs =>
    if isSep c then pascalFlat true cs
    else (if atStart then upperC c else lowerC c) :: pascalFlat false cs

/-- Modelled from the spec: one hyphen-insertion point of claim C6's
described case boundaries, read directly off the claim's words and
independent of the script's regexes.  A hyphen belongs between adjacent
characters c and d exactly when d is uppercase and either c is a lowercase
letter or digit (a lowercase/digit run before an uppercase run), or c is
uppercase and the character after d is lowercase (an uppercase run before
a Title-case word). -/
def claimBoundary (c d : Nat) (rest : List Nat) : Bool :=
  isUpper d && ((isLower c || isDigit c) ||
    (isUpper c && (match rest with | e :: _ => isLower e | [] => false)))

/-- Modelled from the spec: hyphen insertion at exactly the case
boundaries described by claim C6, decided locally at every adjacent pair
with no scanning state. -/
def claimIns : List Nat → List Nat
  | [] => []
  | [c] => [c]
  | c :: d :: rest =>
    if claimBoundary c d rest then c :: 45 :: claimIns (d :: rest)
    else c :: claimIns (d :: rest)

/-- Modelled from the spec wording of claim C6: insert hyphens at the
described case boundaries, then replace every underscore and every
whitespace character (tabs and newlines included) with a hyphen, then
lowercase. -/
def kebabClaim (s : List Nat) : List Nat :=
  pyLower ((claimIns s).map fun c => if c == 95 || isSpace c then 45 else c)

/-- One hyphen-insertion point of the amended C6: a hyphen belongs between
adjacent characters c and d exactly when d is uppercase and either c is a
lowercase letter or digit, or c is any character other than a newline and
the character after d is lowercase.  This widens the second described
boundary from an uppercase run to an arbitrary non-newline character,
which is what the wildcard of the script's first regex matches. -/
def insBoundary (c d : Nat) (rest : List Nat) : Bool :=
  isUpper d && ((isLower c || isDigit c) ||
    (c != 10 && (match rest with | e :: _ => isLower e | [] => false)))

/-- Hyphen insertion of the amended C6, decided locally at every adjacent
pair with no scanning state; proved below to coincide with the combined
effect of the script's two regex substitutions. -/
def kebabIns : List Nat → List Nat
  | [] => []
  | [c] => [c]
  | c :: d :: rest =>
    if insBoundary c d rest then c :: 45 :: kebabIns (d :: rest)
    else c :: kebabIns (d :: rest)

/-- The amended C6: insert hyphens at the amended boundaries, then replace
every underscore and every space (only the space character) with a hyphen,
then lowercase. -/
def kebabAmended (s : List Nat) : List Nat :=
  pyLower (replaceC 32 45 (replaceC 95 45 (kebabIns s)))

/-- Hyphen-join of a list of words: how a kebab-case name is built from its
words (words joined by single hyphens). -/
def hyJoin : List (List Nat) → List Nat
  | [] => []
  | [w] => w
  | w :: ws => w ++ 45 :: hyJoin ws

/-- Shape of the first substitution's output on a concatenation of
capitalized words of length at least two: a hyphen lands after every
odd-numbered word. -/
def altJoin : List (List Nat) → List Nat
  | [] => []
  | [w] => capitalize w
  | w1 :: w2 :: ws => capitalize w1 ++ 45 :: capitalize w2 ++ altJoin ws

/-- Tail of a fully hyphenated join of capitalized words. -/
def interTail : List (List Nat) → List Nat
  | [] => []
  | w :: ws => 45 :: capitalize w ++ interTail ws

/-! Model of replace_in_files over an abstract list of files. -/

/-- One file as replace_in_files sees it: a name, whether the path exists,
whether it decodes as UTF-8 text, and its text. -/
structure PyFile where
  name : List Nat
  present : Bool
  decodeOk : Bool
  text : List Nat
deriving DecidableEq

/-- Treatment of one file by replace_in_files: a missing file is skipped, a
file that fails to decode is skipped, and otherwise the replacement table
is applied to the whole text and the file is written back exactly when the
result differs from the original.  The boolean records whether the file
was written. -/
def processFile (reps : List (List Nat × List Nat)) (f : PyFile) : PyFile × Bool :=
  if f.present = false then (f, false)
  else if f.decodeOk = false then (f, false)
  else if applyReps reps f.text ≠ f.text then
    (⟨f.name, f.present, f.decodeOk, applyReps reps f.text⟩, true)
  else (f, false)

/-- replace_in_files from the script, over the file list. -/
def replace_in_files (reps : List (List Nat × List Nat)) (files : List PyFile) :
    List (PyFile × Bool) :=
  files.map (processFile reps)

/-! Model of main: the filesystem is a list of files, each a path (list of
name segments) with a content.  Directories are implicit in the paths, so
the removal of emptied ancestor directories has no counterpart here, and
shutil.move is modelled in the fresh-clone situation where the destination
does not yet exist. -/

/-- One file of the repository tree. -/
structure FSFile where
  path : List (List Nat)
  content : List Nat
deriving DecidableEq

/-- Outcome of a run of main. -/
inductive Outcome where
  | missingPom
  | aborted
  | completed
deriving DecidableEq

/-- Path of the build descriptor checked by main. -/
def pomAt : List (List Nat) := [pystr "pom.xml"]

/-- Existence test for the build descriptor. -/
def pomExists (fs : List FSFile) : Bool := fs.any fun f => f.path == pomAt

/-- The template's old package name. -/
def old_package : List Nat := pystr "com.kingsrook.qbits.todo"

/-- The template's old package path. -/
def oldPkgPath : List (List Nat) :=
  [pystr "com", pystr "kingsrook", pystr "qbits", pystr "todo"]

/-- The two source roots scanned by main. -/
def srcRoots : List (List (List Nat)) :=
  [[pystr "src", pystr "main", pystr "java"], [pystr "src", pystr "test", pystr "java"]]

/-- Python str.split on a single dot, used to turn the new package name
into a path: no run collapsing, adjacent dots yield empty segments. -/
def splitDot : List Nat → List (List Nat)
  | [] => [[]]
  | c :: cs =>
    if c = 46 then [] :: splitDot cs
    else match splitDot cs with
      | w :: ws => (c :: w) :: ws
      | [] => [[c]]

/-- Move of the directory subtree at oldp to newp: every file strictly
under oldp is re-rooted at newp; when no file lies under oldp the move is
skipped, as in main's existence check. -/
def moveDir (oldp newp : List (List Nat)) (fs : List FSFile) : List FSFile :=
  if fs.any (fun f => isPre oldp f.path && oldp.length < f.path.length) then
    fs.map fun f =>
      if isPre oldp f.path && oldp.length < f.path.length then
        ⟨newp ++ f.path.drop oldp.length, f.content⟩
      else f
  else fs

/-- Glob Todo*.java on a file name. -/
def globTodoJava (name : List Nat) : Bool :=
  isPre (pystr "Todo") name && isSuf (pystr ".java") name && 9 ≤ name.length

/-- Renaming step of main: every file directly inside dir whose name
matches Todo*.java has Todo replaced by the PascalCase name in its file
name. -/
def renameTodos (dir : List (List Nat)) (pascal : List Nat) (fs : List FSFile) :
    List FSFile :=
  fs.map fun f =>
    if isPre dir f.path && f.path.length == dir.length + 1
        && globTodoJava (f.path.getLastD []) then
      ⟨dir ++ [pyReplace (f.path.getLastD []) (pystr "Todo") pascal], f.content⟩
    else f

/-- File-set test of main's content substitution step: Java sources under
src, the build descriptor, Markdown files at the root or under docs, and
YAML files anywhere. -/
def shouldProcess (p : List (List Nat)) : Bool :=
  (isPre [pystr "src"] p && isSuf (pystr ".java") (p.getLastD []))
  || p == pomAt
  || (p.length == 1 && isSuf (pystr ".md") (p.getLastD []))
  || (isPre [pystr "docs"] p && isSuf (pystr ".md") (p.getLastD []))
  || isSuf (pystr ".yml") (p.getLastD [])
  || isSuf (pystr ".yaml") (p.getLastD [])

/-- The ordered replacement table of main, in the script's listed order. -/
def replacementTable (pascal camel newPkg aid org : List Nat) :
    List (List Nat × List Nat) :=
  [ (pystr "package " ++ old_package, pystr "package " ++ newPkg),
    (pystr "import " ++ old_package ++ [46], pystr "import " ++ newPkg ++ [46]),
    (old_package, newPkg),
    (pystr "TodoQBitConfig", pascal ++ pystr "QBitConfig"),
    (pystr "TodoQBitProducer", pascal ++ pystr "QBitProducer"),
    (pystr "todoQBitConfig", camel ++ pystr "QBitConfig"),
    (pystr "Todo QBit", pascal ++ pystr " QBit"),
    (pystr "Todo", pascal),
    (pystr "<artifactId>qbit-todo</artifactId>",
      pystr "<artifactId>" ++ aid ++ pystr "</artifactId>"),
    (pystr "<name>QBit Todo</name>", pystr "<name>QBit " ++ pascal ++ pystr "</name>"),
    (pystr "qbit-todo", aid),
    (pystr "qrun-io/qbit-todo", org ++ 47 :: aid),
    (pystr "github.com/qrun-io/qbit-todo", pystr "github.com/" ++ org ++ 47 :: aid) ]

/-- Model of main: check the build descriptor, then the confirmation
prompt (strip then lowercase, abort on exactly the single letter n), then
the directory moves, the file renames, and the content substitution, in
the script's order.  Inputs are the answers to the prompts. -/
def main_model (fs : List FSFile) (qbit conf gid aid org : List Nat) :
    List FSFile × Outcome :=
  if pomExists fs = false then (fs, Outcome.missingPom)
  else if pyLower (pyStrip conf) = pystr "n" then (fs, Outcome.aborted)
  else
    let pascal := to_pascal_case qbit
    let camel := to_camel_case qbit
    let pkg := to_package_name qbit
    let newPkg := gid ++ 46 :: pkg
    let newPath := splitDot newPkg
    let fs1 := srcRoots.foldl
      (fun acc root => moveDir (root ++ oldPkgPath) (root ++ newPath) acc) fs
    let fs2 := srcRoots.foldl
      (fun acc root => renameTodos (root ++ newPath) pascal acc) fs1
    let table := replacementTable pascal camel newPkg aid org
    let fs3 := fs2.map fun f =>
      if shouldProcess f.path then ⟨f.path, applyReps table f.content⟩ else f
    (fs3, Outcome.completed)

/-! Character-level facts. -/

theorem isUpper_iff {c : Nat} : isUpper c = true ↔ 65 ≤ c ∧ c ≤ 90 := by
  simp [isUpper]

theorem isLower_iff {c : Nat} : isLower c = true ↔ 97 ≤ c ∧ c ≤ 122 := by
  simp [isLower]

theorem isLower_isUpper {c : Nat} (h : isLower c = true) : isUpper c = false := by
  simp [isLower] at h
  simp [isUpper]
  omega

theorem isUpper_isLower {c : Nat} (h : isUpper c = true) : isLower c = false := by
  simp [isUpper] at h
  simp [isLower]
  omega

theorem isUpper_isDigit {c : Nat} (h : isUpper c = true) : isDigit c = false := by
  simp [isUpper] at h
  simp [isDigit]
  omega

theorem isLower_isSep {c : Nat} (h : isLower c = true) : isSep c = false := by
  simp [isLower] at h
  simp [isSep, isSpace]
  omega

theorem isLower_ne_newline {c : Nat} (h : isLower c = true) : (c != 10) = true := by
  simp [isLower] at h
  simp only [bne_iff_ne, ne_eq]
  omega

theorem isUpper_ne_newline {c : Nat} (h : isUpper c = true) : (c != 10) = true := by
  simp [isUpper] at h
  simp only [bne_iff_ne, ne_eq]
  omega

theorem upperC_isUpper {c : Nat} (h : isLower c = true) : isUpper (upperC c) = true := by
  rw [isLower_iff] at h
  rw [upperC, if_pos (isLower_iff.mpr h), isUpper_iff]
  omega

theorem lowerC_upperC {c : Nat} (h : isLower c = true) : lowerC (upperC c) = c := by
  have hu := upperC_isUpper h
  rw [isLower_iff] at h
  rw [upperC, if_pos (isLower_iff.mpr h)] at hu ⊢
  rw [lowerC, if_pos hu]
  omega

theorem lowerC_of_isLower {c : Nat} (h : isLower c = true) : lowerC c = c := by
  rw [lowerC, if_neg]
  rw [isLower_isUpper h]
  simp

theorem isUpper_lowerC (c : Nat) : isUpper (lowerC c) = false := by
  rw [lowerC]
  split <;> rename_i h <;> simp [isUpper] at h ⊢ <;> omega

theorem lowerC_eq_n_iff {c : Nat} : lowerC c = 110 ↔ c = 110 ∨ c = 78 := by
  rw [lowerC]
  split <;> rename_i h <;> simp [isUpper] at h <;> omega

theorem pyLower_of_all_lower {t : List Nat} (h : ∀ c ∈ t, isLower c = true) :
    pyLower t = t := by
  rw [pyLower]
  rw [List.map_congr_left fun c hc => lowerC_of_isLower (h c hc)]
  exact List.map_id t

theorem capitalize_of_all_lower {c : Nat} {t : List Nat}
    (h : ∀ x ∈ c :: t, isLower x = true) :
    capitalize (c :: t) = upperC c :: t := by
  rw [capitalize, pyLower_of_all_lower fun x hx => h x (List.mem_cons_of_mem c hx)]

theorem length_dropWhile_le (p : Nat → Bool) (l : List Nat) :
    (l.dropWhile p).length ≤ l.length := by
  induction l with
  | nil => simp [List.dropWhile]
  | cons c cs ih =>
    rw [List.dropWhile_cons]
    split
    · exact Nat.le_trans ih (by simp)
    · simp

theorem dropWhile_of_takeWhile_nil {p : Nat → Bool} {l : List Nat}
    (h : l.takeWhile p = []) : l.dropWhile p = l := by
  cases l with
  | nil => rfl
  | cons c cs =>
    rw [List.takeWhile_cons] at h
    rw [List.dropWhile_cons]
    split
    · next hp => rw [if_pos hp] at h; exact absurd h (by simp)
    · rfl

theorem takeWhile_append_of_all {t R : List Nat} (ht : ∀ c ∈ t, isLower c = true)
    (hR : R.takeWhile isLower = []) :
    (t ++ R).takeWhile isLower = t := by
  induction t with
  | nil => simpa using hR
  | cons c cs ih =>
    rw [List.cons_append, List.takeWhile_cons, if_pos (ht c (by simp))]
    rw [ih fun x hx => ht x (List.mem_cons_of_mem c hx)]

theorem dropWhile_append_of_all {t R : List Nat} (ht : ∀ c ∈ t, isLower c = true)
    (hR : R.takeWhile isLower = []) :
    (t ++ R).dropWhile isLower = R := by
  induction t with
  | nil => simpa using dropWhile_of_takeWhile_nil hR
  | cons c cs ih =>
    rw [List.cons_append, List.dropWhile_cons, if_pos (ht c (by simp))]
    exact ih fun x hx => ht x (List.mem_cons_of_mem c hx)

/-! Fuel infrastructure for the first kebab-case substitution. -/

theorem sub1F_nil (f : Nat) : sub1F f [] = [] := by cases f <;> rfl

theorem sub1F_congr : ∀ f g s, s.length ≤ f → s.length ≤ g → sub1F f s = sub1F g s := by
  intro f
  induction f with
  | zero =>
    intro g s hf _
    have hs : s = [] := List.length_eq_zero.mp (Nat.le_zero.mp hf)
    subst hs
    rw [sub1F_nil, sub1F_nil]
  | succ f ih =>
    intro g s hf hg
    match s with
    | [] => rw [sub1F_nil, sub1F_nil]
    | [c] =>
      match g with
      | 0 => simp at hg
      | g + 1 => rfl
    | c :: d :: rest =>
      match g with
      | 0 => simp at hg
      | g + 1 =>
        simp only [List.length_cons] at hf hg
        show sub1F (f + 1) (c :: d :: rest) = sub1F (g + 1) (c :: d :: rest)
        simp only [sub1F]
        split
        · rw [ih g _ (Nat.le_trans (length_dropWhile_le _ _) (by omega))
            (Nat.le_trans (length_dropWhile_le _ _) (by omega))]
        · rw [ih g _ (by simp; omega) (by simp; omega)]

theorem sub1_eq_fuel {f : Nat} {s : List Nat} (h : s.length ≤ f) :
    sub1F f s = sub1 s :=
  sub1F_congr f s.length s h (Nat.le_refl _)

/-- Unfolding equation for sub1 on a list of two or more characters. -/
theorem sub1_cons2 (c d : Nat) (rest : List Nat) :
    sub1 (c :: d :: rest) =
      if c != 10 && isUpper d && !(rest.takeWhile isLower).isEmpty then
        c :: 45 :: d :: rest.takeWhile isLower ++ sub1 (rest.dropWhile isLower)
      else
        c :: sub1 (d :: rest) := by
  show sub1F (rest.length + 1 + 1) (c :: d :: rest) = _
  simp only [sub1F]
  split
  · rw [sub1_eq_fuel (Nat.le_trans (length_dropWhile_le _ _) (by omega))]
  · rfl

/-- No match happens while scanning a wholly lowercase remainder. -/
theorem sub1_all_lower_after {t : List Nat} (x : Nat)
    (h : ∀ c ∈ t, isLower c = true) : sub1 (x :: t) = x :: t := by
  induction t generalizing x with
  | nil => rfl
  | cons d t2 ih =>
    rw [sub1_cons2]
    rw [if_neg (by simp [isLower_isUpper (h d (by simp))])]
    rw [ih d fun c hc => h c (by simp [hc])]

/-- Scanning a lowercase run a from a harmless head x, the first match is
at the end of a against an uppercase U followed by a lowercase run t; the
match consumes through t and scanning resumes at R. -/
theorem sub1_walk {a : List Nat} {x U : Nat} {t R : List Nat}
    (ha : ∀ c ∈ a, isLower c = true) (hx : (x != 10) = true)
    (hU : isUpper U = true) (ht : ∀ c ∈ t, isLower c = true) (htne : t ≠ [])
    (hR : R.takeWhile isLower = []) :
    sub1 (x :: (a ++ U :: (t ++ R))) = x :: (a ++ 45 :: U :: (t ++ sub1 R)) := by
  induction a generalizing x with
  | nil =>
    cases t with
    | nil => exact absurd rfl htne
    | cons e t2 =>
      simp only [List.nil_append]
      rw [List.cons_append, sub1_cons2]
      have he : isLower e = true := ht e (by simp)
      rw [if_pos]
      · rw [← List.cons_append, takeWhile_append_of_all ht hR,
          dropWhile_append_of_all ht hR]
        simp
      · rw [List.takeWhile_cons, if_pos he]
        simp [hx, hU]
  | cons b a2 ih =>
    have hb : isLower b = true := ha b (by simp)
    rw [List.cons_append, sub1_cons2]
    rw [if_neg (by simp [isLower_isUpper hb])]
    rw [ih (fun c hc => ha c (by simp [hc])) (isLower_ne_newline hb)]
    simp

/-- A flattened list of capitalized words starts with an uppercase letter
or is empty, so its leading lowercase run is empty. -/
theorem capFlat_takeWhile {ws : List (List Nat)}
    (h : ∀ w ∈ ws, 2 ≤ w.length ∧ ∀ c ∈ w, isLower c = true) :
    ((ws.map capitalize).flatten).takeWhile isLower = [] := by
  cases ws with
  | nil => rfl
  | cons w rest =>
    have hw := h w (by simp)
    cases w with
    | nil => simp at hw
    | cons c t =>
      have hc : isLower c = true := hw.2 c (by simp)
      simp only [List.map_cons, List.flatten_cons, capitalize, List.cons_append,
        List.takeWhile_cons]
      rw [if_neg (by simp [isUpper_isLower (upperC_isUpper hc)])]

/-- Shape of the first substitution on a concatenation of capitalized
words of length at least two: it hyphenates alternating boundaries,
consuming each even-numbered word. -/
theorem sub1_capFlat : ∀ (n : Nat) (ws : List (List Nat)), ws.length ≤ n →
    (∀ w ∈ ws, 2 ≤ w.length ∧ ∀ c ∈ w, isLower c = true) →
    sub1 ((ws.map capitalize).flatten) = altJoin ws := by
  intro n
  induction n with
  | zero =>
    intro ws hlen _
    have hs : ws = [] := List.length_eq_zero.mp (Nat.le_zero.mp hlen)
    subst hs
    rfl
  | succ n ih =>
    intro ws hlen hg
    match ws with
    | [] => rfl
    | [w] =>
      have hw := hg w (by simp)
      cases w with
      | nil => simp at hw
      | cons c t =>
        simp only [List.map_cons, List.map_nil, List.flatten_cons, List.flatten_nil,
          List.append_nil, altJoin]
        rw [capitalize_of_all_lower hw.2]
        exact sub1_all_lower_after _ fun x hx => hw.2 x (by simp [hx])
    | w1 :: w2 :: rest =>
      have h1 := hg w1 (by simp)
      have h2 := hg w2 (by simp)
      cases w1 with
      | nil => simp at h1
      | cons c1 t1 =>
      cases w2 with
      | nil => simp at h2
      | cons c2 t2 =>
        have hc1 : isLower c1 = true := h1.2 c1 (by simp)
        have hc2 : isLower c2 = true := h2.2 c2 (by simp)
        have ht1 : ∀ c ∈ t1, isLower c = true := fun c hc => h1.2 c (by simp [hc])
        have ht2 : ∀ c ∈ t2, isLower c = true := fun c hc => h2.2 c (by simp [hc])
        have ht2ne : t2 ≠ [] := by
          intro hnil
          subst hnil
          simp at h2
        have hrest : ∀ w ∈ rest, 2 ≤ w.length ∧ ∀ c ∈ w, isLower c = true :=
          fun w hw => hg w (by simp [hw])
        simp only [List.map_cons, List.flatten_cons, altJoin]
        rw [capitalize_of_all_lower h1.2, capitalize_of_all_lower h2.2]
        have hshape : (upperC c1 :: t1) ++ ((upperC c2 :: t2) ++ (rest.map capitalize).flatten)
            = upperC c1 :: (t1 ++ upperC c2 :: (t2 ++ (rest.map capitalize).flatten)) := by
          simp
        rw [hshape]
        rw [sub1_walk ht1 (isUpper_ne_newline (upperC_isUpper hc1))
          (upperC_isUpper hc2) ht2 ht2ne (capFlat_takeWhile hrest)]
        have hlen2 : rest.length ≤ n := by
          simp only [List.length_cons] at hlen
          omega
        rw [ih rest hlen2 hrest]
        simp

/-! Walk lemmas for the second kebab-case substitution. -/

theorem sub2_all_lower {a : List Nat} (h : ∀ c ∈ a, isLower c = true) :
    sub2 a = a := by
  induction a with
  | nil => rfl
  | cons c cs ih =>
    cases cs with
    | nil => rfl
    | cons d cs2 =>
      rw [sub2, if_neg (by simp [isLower_isUpper (h d (by simp))])]
      rw [ih fun x hx => h x (by simp [hx])]

theorem sub2_step {c : Nat} (s : List Nat) (h : (isLower c || isDigit c) = false) :
    sub2 (c :: s) = c :: sub2 s := by
  cases s with
  | nil => rfl
  | cons d s2 => rw [sub2, if_neg (by simp [h])]

theorem sub2_walk_hyphen {a : List Nat} (s : List Nat)
    (h : ∀ c ∈ a, isLower c = true) :
    sub2 (a ++ 45 :: s) = a ++ 45 :: sub2 s := by
  induction a with
  | nil =>
    simp only [List.nil_append]
    exact sub2_step s (by simp [isLower, isDigit])
  | cons b a2 ih =>
    have hb : isLower b = true := h b (by simp)
    cases a2 with
    | nil =>
      simp only [List.cons_append, List.nil_append]
      rw [sub2, if_neg (by simp [isUpper])]
      rw [sub2_step s (by simp [isLower, isDigit])]
    | cons e a3 =>
      simp only [List.cons_append]
      rw [sub2, if_neg (by simp [isLower_isUpper (h e (by simp))])]
      rw [← List.cons_append, ih fun x hx => h x (by simp [hx])]
      simp

theorem sub2_walk_upper {a : List Nat} {U : Nat} (s : List Nat)
    (h : ∀ c ∈ a, isLower c = true) (hne : a ≠ []) (hU : isUpper U = true) :
    sub2 (a ++ U :: s) = a ++ 45 :: U :: sub2 s := by
  induction a with
  | nil => exact absurd rfl hne
  | cons b a2 ih =>
    have hb : isLower b = true := h b (by simp)
    cases a2 with
    | nil =>
      simp only [List.cons_append, List.nil_append]
      rw [sub2, if_pos (by simp [hb, hU])]
    | cons e a3 =>
      simp only [List.cons_append]
      rw [sub2, if_neg (by simp [isLower_isUpper (h e (by simp))])]
      rw [← List.cons_append, ih (fun x hx => h x (by simp [hx])) (by simp)]
      simp

/-- Processing of the tail of the alternately-hyphenated join: the second
substitution inserts the missing hyphens at every remaining boundary. -/
theorem sub2_tail : ∀ (n : Nat) (ws : List (List Nat)) (t : List Nat), ws.length ≤ n →
    (∀ w ∈ ws, 2 ≤ w.length ∧ ∀ c ∈ w, isLower c = true) →
    (∀ c ∈ t, isLower c = true) → t ≠ [] →
    sub2 (t ++ altJoin ws) = t ++ interTail ws := by
  intro n
  induction n with
  | zero =>
    intro ws t hlen _ ht _
    have hs : ws = [] := List.length_eq_zero.mp (Nat.le_zero.mp hlen)
    subst hs
    simpa [altJoin, interTail] using sub2_all_lower ht
  | succ n ih =>
    intro ws t hlen hg ht htne
    match ws with
    | [] => simpa [altJoin, interTail] using sub2_all_lower ht
    | [w] =>
      have hw := hg w (by simp)
      cases w with
      | nil => simp at hw
      | cons c tw =>
        have hc : isLower c = true := hw.2 c (by simp)
        simp only [altJoin, interTail]
        rw [capitalize_of_all_lower hw.2]
        rw [sub2_walk_upper _ ht htne (upperC_isUpper hc)]
        rw [sub2_all_lower fun x hx => hw.2 x (by simp [hx])]
        simp
    | w1 :: w2 :: rest =>
      have h1 := hg w1 (by simp)
      have h2 := hg w2 (by simp)
      cases w1 with
      | nil => simp at h1
      | cons c1 t1 =>
      cases w2 with
      | nil => simp at h2
      | cons c2 t2 =>
        have hc1 : isLower c1 = true := h1.2 c1 (by simp)
        have hc2 : isLower c2 = true := h2.2 c2 (by simp)
        have ht1 : ∀ c ∈ t1, isLower c = true := fun c hc => h1.2 c (by simp [hc])
        have ht2 : ∀ c ∈ t2, isLower c = true := fun c hc => h2.2 c (by simp [hc])
        have ht2ne : t2 ≠ [] := by
          intro hnil
          subst hnil
          simp at h2
        have hrest : ∀ w ∈ rest, 2 ≤ w.length ∧ ∀ c ∈ w, isLower c = true :=
          fun w hw => hg w (by simp [hw])
        simp only [altJoin, interTail]
        rw [capitalize_of_all_lower h1.2, capitalize_of_all_lower h2.2]
        simp only [List.cons_append, List.append_assoc]
        rw [sub2_walk_upper _ ht htne (upperC_isUpper hc1)]
        rw [sub2_walk_hyphen _ ht1]
        rw [sub2_step _ (by simp [isUpper_isLower (upperC_isUpper hc2),
          isUpper_isDigit (upperC_isUpper hc2)])]
        have hlen2 : rest.length ≤ n := by
          simp only [List.length_cons] at hlen
          omega
        rw [ih rest t2 hlen2 hrest ht2 ht2ne]

theorem hyJoin_cons {w : List Nat} {ws : List (List Nat)} (h : ws ≠ []) :
    hyJoin (w :: ws) = w ++ 45 :: hyJoin ws := by
  cases ws with
  | nil => exact absurd rfl h
  | cons u us => rfl

theorem hyJoin_map_cap {w : List Nat} {ws : List (List Nat)} :
    hyJoin ((w :: ws).map capitalize) = capitalize w ++ interTail ws := by
  induction ws generalizing w with
  | nil => simp [hyJoin, interTail]
  | cons u us ih =>
    simp only [List.map_cons] at ih ⊢
    rw [hyJoin_cons (by simp), interTail]
    rw [ih]
    simp

/-- The second substitution turns the alternately-hyphenated join into the
fully hyphenated join of the capitalized words. -/
theorem sub2_altJoin {ws : List (List Nat)}
    (hg : ∀ w ∈ ws, 2 ≤ w.length ∧ ∀ c ∈ w, isLower c = true) :
    sub2 (altJoin ws) = hyJoin (ws.map capitalize) := by
  match ws with
  | [] => rfl
  | [w] =>
    have hw := hg w (by simp)
    cases w with
    | nil => simp at hw
    | cons c t =>
      have hc : isLower c = true := hw.2 c (by simp)
      simp only [altJoin, List.map_cons, List.map_nil, hyJoin]
      rw [capitalize_of_all_lower hw.2]
      rw [sub2_step _ (by simp [isUpper_isLower (upperC_isUpper hc),
        isUpper_isDigit (upperC_isUpper hc)])]
      rw [sub2_all_lower fun x hx => hw.2 x (by simp [hx])]
  | w1 :: w2 :: rest =>
    have h1 := hg w1 (by simp)
    have h2 := hg w2 (by simp)
    cases w1 with
    | nil => simp at h1
    | cons c1 t1 =>
    cases w2 with
    | nil => simp at h2
    | cons c2 t2 =>
      have hc1 : isLower c1 = true := h1.2 c1 (by simp)
      have hc2 : isLower c2 = true := h2.2 c2 (by simp)
      have ht1 : ∀ c ∈ t1, isLower c = true := fun c hc => h1.2 c (by simp [hc])
      have ht2 : ∀ c ∈ t2, isLower c = true := fun c hc => h2.2 c (by simp [hc])
      have ht2ne : t2 ≠ [] := by
        intro hnil
        subst hnil
        simp at h2
      have hrest : ∀ w ∈ rest, 2 ≤ w.length ∧ ∀ c ∈ w, isLower c = true :=
        fun w hw => hg w (by simp [hw])
      simp only [altJoin]
      rw [capitalize_of_all_lower h1.2, capitalize_of_all_lower h2.2]
      simp only [List.cons_append, List.append_assoc]
      rw [sub2_step _ (by simp [isUpper_isLower (upperC_isUpper hc1),
        isUpper_isDigit (upperC_isUpper hc1)])]
      rw [sub2_walk_hyphen _ ht1]
      rw [sub2_step _ (by simp [isUpper_isLower (upperC_isUpper hc2),
        isUpper_isDigit (upperC_isUpper hc2)])]
      rw [sub2_tail rest.length rest t2 (Nat.le_refl _) hrest ht2 ht2ne]
      rw [hyJoin_map_cap]
      rw [capitalize_of_all_lower h1.2, interTail]
      rw [capitalize_of_all_lower h2.2]
      simp

/-! Behaviour of the splitting step of to_pascal_case. -/

theorem splitSep_ne_nil : ∀ s : List Nat, splitSep s ≠ [] := by
  intro s
  induction s with
  | nil => simp [splitSep]
  | cons c cs ih =>
    simp only [splitSep]
    split
    · split
      · split
        · exact ih
        · simp
      · simp
    · split
      · simp
      · simp

theorem splitSep_no_sep {w : List Nat} (h : ∀ c ∈ w, isSep c = false) :
    splitSep w = [w] := by
  induction w with
  | nil => rfl
  | cons c cs ih =>
    simp only [splitSep]
    rw [if_neg (by simp [h c (by simp)])]
    rw [ih fun x hx => h x (by simp [hx])]

theorem splitSep_append_hy {w t : List Nat} (hw : ∀ c ∈ w, isSep c = false)
    (htne : t ≠ []) (hth : isSep t.headI = false) :
    splitSep (w ++ 45 :: t) = w :: splitSep t := by
  induction w with
  | nil =>
    cases t with
    | nil => exact absurd rfl htne
    | cons d t2 =>
      simp only [List.headI] at hth
      simp only [List.nil_append, splitSep]
      rw [if_pos (by decide)]
      rw [if_neg (by simp [hth])]
  | cons c w2 ih =>
    simp only [List.cons_append, splitSep]
    rw [if_neg (by simp [hw c (by simp)])]
    simp only [List.append_eq]
    rw [ih fun x hx => hw x (by simp [hx])]

theorem hyJoin_head {us : List (List Nat)} {c : Nat} {t : List Nat} :
    (hyJoin ((c :: t) :: us)).headI = c ∧ hyJoin ((c :: t) :: us) ≠ [] := by
  cases us with
  | nil => simp [hyJoin]
  | cons u us2 => simp [hyJoin]

theorem splitSep_hyJoin : ∀ ws : List (List Nat), ws ≠ [] →
    (∀ w ∈ ws, 2 ≤ w.length ∧ ∀ c ∈ w, isLower c = true) →
    splitSep (hyJoin ws) = ws := by
  intro ws
  induction ws with
  | nil => intro h _; exact absurd rfl h
  | cons w ws2 ih =>
    intro _ hg
    cases ws2 with
    | nil =>
      show splitSep (hyJoin [w]) = [w]
      exact splitSep_no_sep fun c hc => isLower_isSep ((hg w (by simp)).2 c hc)
    | cons u us =>
      have hu := hg u (by simp)
      cases u with
      | nil => simp at hu
      | cons cu tu =>
        have hcu : isLower cu = true := hu.2 cu (by simp)
        rw [hyJoin_cons (by simp)]
        rw [splitSep_append_hy
          (fun c hc => isLower_isSep ((hg w (by simp)).2 c hc))
          hyJoin_head.2 (by rw [hyJoin_head.1]; exact isLower_isSep hcu)]
        rw [ih (by simp) fun v hv => hg v (by simp [hv])]

/-! Facts about str.replace and occurrence testing. -/

theorem pyReplaceF_single (a b : Nat) : ∀ (f : Nat) (s : List Nat), s.length < f →
    pyReplaceF f s [a] [b] = replaceC a b s := by
  intro f
  induction f with
  | zero =>
    intro s h
    exact absurd h (Nat.not_lt_zero _)
  | succ f ih =>
    intro s hlen
    cases s with
    | nil =>
      simp only [pyReplaceF, List.isEmpty_cons, isPre]
      rfl
    | cons c cs =>
      simp only [List.length_cons] at hlen
      simp only [pyReplaceF, List.isEmpty_cons, Bool.false_eq_true, if_false, isPre]
      by_cases hac : a = c
      · subst hac
        rw [if_pos (by simp [isPre])]
        simp only [List.length_cons, List.length_nil, List.drop_succ_cons,
          List.drop_zero]
        rw [ih cs (by omega)]
        simp [replaceC]
      · rw [if_neg (by simp [isPre, hac])]
        rw [ih cs (by omega)]
        simp [replaceC, hac, Ne.symm hac]

theorem pyReplace_single (a b : Nat) (s : List Nat) :
    pyReplace s [a] [b] = replaceC a b s :=
  pyReplaceF_single a b (s.length + 1) s (by omega)

theorem occursIn_cons (old : List Nat) (c : Nat) (cs : List Nat) :
    occursIn old (c :: cs) = (isPre old (c :: cs) || occursIn old cs) := by
  rw [occursIn]
  split
  · next h => simp [h]
  · next h => simp [Bool.eq_false_iff.mpr h]

theorem pyReplaceF_no_occur : ∀ (f : Nat) (s old new : List Nat), s.length < f →
    occursIn old s = false → pyReplaceF f s old new = s := by
  intro f
  induction f with
  | zero =>
    intro s old new h _
    exact absurd h (Nat.not_lt_zero _)
  | succ f ih =>
    intro s old new hlen hocc
    have hne : old ≠ [] := by
      intro h0
      subst h0
      cases s with
      | nil => simp [occursIn, isPre] at hocc
      | cons c cs => rw [occursIn_cons] at hocc; simp [isPre] at hocc
    cases s with
    | nil =>
      simp only [pyReplaceF]
      rw [if_neg (by simp [hne])]
      have hpre : isPre old ([] : List Nat) = false := by
        by_cases hp : isPre old ([] : List Nat) = true
        · rw [occursIn, if_pos hp] at hocc; simp at hocc
        · exact Bool.eq_false_iff.mpr hp
      rw [if_neg (by simp [hpre])]
    | cons c cs =>
      rw [occursIn_cons] at hocc
      simp only [Bool.or_eq_false_iff] at hocc
      simp only [List.length_cons] at hlen
      simp only [pyReplaceF]
      rw [if_neg (by simp [hne])]
      rw [if_neg (by simp [hocc.1])]
      rw [ih cs old new (by omega) hocc.2]

theorem pyReplace_no_occur {s old new : List Nat} (h : occursIn old s = false) :
    pyReplace s old new = s :=
  pyReplaceF_no_occur (s.length + 1) s old new (by omega) h

/-- A text in which no search string of the table occurs is a fixed point
of the replacement pass. -/
theorem applyReps_of_no_occur : ∀ (reps : List (List Nat × List Nat)) (t : List Nat),
    (∀ p ∈ reps, occursIn p.1 t = false) → applyReps reps t = t := by
  intro reps
  induction reps with
  | nil => intro t _; rfl
  | cons p ps ih =>
    intro t h
    simp only [applyReps, List.foldl_cons]
    rw [pyReplace_no_occur (h p (by simp))]
    exact ih t fun q hq => h q (by simp [hq])

/-! Lowercasing of capitalized joins, and character inventories. -/

theorem lowerC_of_not_upper {c : Nat} (h : isUpper c = false) : lowerC c = c := by
  rw [lowerC, if_neg (by simp [h])]

theorem pyLower_cap {w : List Nat} (h : ∀ c ∈ w, isLower c = true) :
    pyLower (capitalize w) = w := by
  cases w with
  | nil => rfl
  | cons c t =>
    rw [capitalize_of_all_lower h]
    show lowerC (upperC c) :: (t.map lowerC) = c :: t
    rw [lowerC_upperC (h c (by simp))]
    have : pyLower t = t := pyLower_of_all_lower fun x hx => h x (by simp [hx])
    rw [show t.map lowerC = pyLower t from rfl, this]

theorem pyLower_hyJoin_cap : ∀ ws : List (List Nat),
    (∀ w ∈ ws, ∀ c ∈ w, isLower c = true) →
    pyLower (hyJoin (ws.map capitalize)) = hyJoin ws := by
  intro ws
  induction ws with
  | nil => intro _; rfl
  | cons w ws2 ih =>
    intro hg
    cases ws2 with
    | nil =>
      show pyLower (capitalize w) = w
      exact pyLower_cap (hg w (by simp))
    | cons u us =>
      simp only [List.map_cons]
      rw [hyJoin_cons (show (capitalize u :: us.map capitalize) ≠ [] by simp),
        hyJoin_cons (show (u :: us) ≠ [] by simp)]
      rw [pyLower, List.map_append, List.map_cons]
      rw [show List.map lowerC (capitalize w) = pyLower (capitalize w) from rfl]
      rw [pyLower_cap (hg w (by simp))]
      rw [show lowerC 45 = 45 by decide]
      have := ih fun v hv => hg v (by simp [hv])
      simp only [List.map_cons] at this
      rw [show List.map lowerC (hyJoin (capitalize u :: us.map capitalize))
        = pyLower (hyJoin (capitalize u :: us.map capitalize)) from rfl]
      rw [this]

theorem hyJoin_chars : ∀ ws : List (List Nat),
    (∀ w ∈ ws, ∀ c ∈ w, isLower c = true) →
    ∀ c ∈ hyJoin ws, c = 45 ∨ isLower c = true := by
  intro ws
  induction ws with
  | nil =>
    intro _ c hc
    simp [hyJoin] at hc
  | cons w ws2 ih =>
    intro hg c hc
    cases ws2 with
    | nil =>
      exact Or.inr (hg w (by simp) c hc)
    | cons u us =>
      rw [hyJoin_cons (by simp)] at hc
      rcases List.mem_append.mp hc with h | h
      · exact Or.inr (hg w (by simp) c h)
      · rcases List.mem_cons.mp h with h45 | h2
        · exact Or.inl h45
        · exact ih (fun v hv => hg v (by simp [hv])) c h2

theorem replaceC_id {a b : Nat} {s : List Nat} (h : ∀ c ∈ s, c ≠ a) :
    replaceC a b s = s := by
  induction s with
  | nil => rfl
  | cons c cs ih =>
    simp only [replaceC, List.map_cons]
    rw [if_neg (h c (by simp))]
    have := ih fun x hx => h x (by simp [hx])
    simp only [replaceC] at this
    rw [this]

theorem replaceC_chars {a b : Nat} {s : List Nat} :
    ∀ c ∈ replaceC a b s, c = b ∨ (c ∈ s ∧ c ≠ a) := by
  intro c hc
  simp only [replaceC, List.mem_map] at hc
  obtain ⟨x, hx, rfl⟩ := hc
  by_cases hxa : x = a
  · rw [if_pos hxa]
    exact Or.inl rfl
  · rw [if_neg hxa]
    exact Or.inr ⟨hx, hxa⟩

theorem pyLower_chars {s : List Nat} : ∀ c ∈ pyLower s, isUpper c = false := by
  intro c hc
  simp only [pyLower, List.mem_map] at hc
  obtain ⟨x, _, rfl⟩ := hc
  exact isUpper_lowerC x

/-! No-match identity of the substitutions on uppercase-free text. -/

theorem sub1_no_upper {s : List Nat} (h : ∀ c ∈ s, isUpper c = false) :
    sub1 s = s := by
  induction s with
  | nil => rfl
  | cons c cs ih =>
    cases cs with
    | nil => rfl
    | cons d cs2 =>
      rw [sub1_cons2, if_neg (by simp [h d (by simp)])]
      rw [ih fun x hx => h x (by simp [hx])]

theorem sub2_no_upper {s : List Nat} (h : ∀ c ∈ s, isUpper c = false) :
    sub2 s = s := by
  induction s with
  | nil => rfl
  | cons c cs ih =>
    cases cs with
    | nil => rfl
    | cons d cs2 =>
      rw [sub2, if_neg (by simp [h d (by simp)])]
      rw [ih fun x hx => h x (by simp [hx])]

theorem pyLower_no_upper {s : List Nat} (h : ∀ c ∈ s, isUpper c = false) :
    pyLower s = s := by
  induction s with
  | nil => rfl
  | cons c cs ih =>
    simp only [pyLower, List.map_cons]
    rw [lowerC_of_not_upper (h c (by simp))]
    have := ih fun x hx => h x (by simp [hx])
    simp only [pyLower] at this
    rw [this]

/-! Characterwise description of to_pascal_case. -/

theorem splitSep_headI_sep : ∀ (cs : List Nat) (c : Nat), isSep c = true →
    (splitSep (c :: cs)).headI = [] := by
  intro cs
  induction cs with
  | nil =>
    intro c h
    simp only [splitSep]
    rw [if_pos h]
    rfl
  | cons d cs2 ih =>
    intro c h
    simp only [splitSep]
    rw [if_pos h]
    by_cases hd : isSep d = true
    · rw [if_pos hd]
      have := ih d hd
      simp only [splitSep] at this
      exact this
    · rw [if_neg hd]
      rfl

theorem pascalFlat_aux : ∀ s : List Nat,
    pascalFlat true s = ((splitSep s).map capitalize).flatten ∧
    pascalFlat false s = pyLower (splitSep s).headI
      ++ (((splitSep s).tail).map capitalize).flatten := by
  intro s
  induction s with
  | nil => exact ⟨rfl, rfl⟩
  | cons c cs ih =>
    by_cases hc : isSep c = true
    · have hflat : pascalFlat true (c :: cs) = pascalFlat true cs := by
        simp only [pascalFlat]
        rw [if_pos hc]
      have hflat2 : pascalFlat false (c :: cs) = pascalFlat true cs := by
        simp only [pascalFlat]
        rw [if_pos hc]
      cases cs with
      | nil =>
        constructor
        · rw [hflat]
          simp only [splitSep]
          rw [if_pos hc]
          rfl
        · rw [hflat2]
          simp only [splitSep]
          rw [if_pos hc]
          rfl
      | cons d cs2 =>
        by_cases hd : isSep d = true
        · have hsplit : splitSep (c :: d :: cs2) = splitSep (d :: cs2) := by
            simp only [splitSep]
            rw [if_pos hc, if_pos hd]
          obtain ⟨w, ws, hws⟩ : ∃ w ws, splitSep (d :: cs2) = w :: ws := by
            cases h : splitSep (d :: cs2) with
            | nil => exact absurd h (splitSep_ne_nil _)
            | cons w ws => exact ⟨w, ws, rfl⟩
          have hw : w = [] := by
            have := splitSep_headI_sep cs2 d hd
            rw [hws] at this
            exact this
          subst hw
          constructor
          · rw [hflat, ih.1, hsplit]
          · rw [hflat2, ih.1, hsplit, hws]
            simp [pyLower, capitalize]
        · have hsplit : splitSep (c :: d :: cs2) = [] :: splitSep (d :: cs2) := by
            simp only [splitSep]
            rw [if_pos hc, if_neg hd]
          constructor
          · rw [hflat, ih.1, hsplit]
            simp [capitalize]
          · rw [hflat2, ih.1, hsplit]
            simp [pyLower]
    · obtain ⟨w, ws, hws⟩ : ∃ w ws, splitSep cs = w :: ws := by
        cases h : splitSep cs with
        | nil => exact absurd h (splitSep_ne_nil _)
        | cons w ws => exact ⟨w, ws, rfl⟩
      have hsplit : splitSep (c :: cs) = (c :: w) :: ws := by
        cases cs with
        | nil =>
          simp only [splitSep] at hws ⊢
          rw [if_neg hc]
          obtain ⟨hw, hws2⟩ := List.cons.inj hws
          rw [← hw, ← hws2]
        | cons d cs2 =>
          simp only [splitSep] at hws ⊢
          rw [if_neg hc, hws]
      have htrue : pascalFlat true (c :: cs) = upperC c :: pascalFlat false cs := by
        simp only [pascalFlat]
        rw [if_neg hc]
        simp
      have hfalse : pascalFlat false (c :: cs) = lowerC c :: pascalFlat false cs := by
        simp only [pascalFlat]
        rw [if_neg hc]
        simp
      constructor
      · rw [htrue, ih.2, hsplit, hws]
        simp [capitalize]
      · rw [hfalse, ih.2, hsplit, hws]
        simp [pyLower]

/-! Commutation of lowercasing with the separator replacements. -/

theorem lowerC_sep_comm (c : Nat) :
    (if (if lowerC c = 95 then 45 else lowerC c) = 32 then 45
     else if lowerC c = 95 then 45 else lowerC c)
    = lowerC (if (if c = 95 then 45 else c) = 32 then 45
              else if c = 95 then 45 else c) := by
  by_cases h : isUpper c = true
  · have hb : 65 ≤ c ∧ c ≤ 90 := by simpa [isUpper] using h
    have e1 : lowerC c = c + 32 := by rw [lowerC, if_pos h]
    have h1 : ¬(c + 32 = 95) := by omega
    have h2 : ¬(c + 32 = 32) := by omega
    have h3 : ¬(c = 95) := by omega
    have h4 : ¬(c = 32) := by omega
    rw [e1, if_neg h1, if_neg h2, if_neg h3, if_neg h4, e1]
  · have hc : lowerC c = c :=
      lowerC_of_not_upper (Bool.eq_false_iff.mpr h)
    rw [hc]
    by_cases h95 : c = 95
    · subst h95
      decide
    · rw [if_neg h95]
      by_cases h32 : c = 32
      · subst h32
        decide
      · rw [if_neg h32]
        exact hc.symm

/-! Stripped and lowercased confirmation input. -/

theorem pyLower_eq_n_iff {t : List Nat} :
    pyLower t = [110] ↔ t = [110] ∨ t = [78] := by
  cases t with
  | nil => simp [pyLower]
  | cons c cs =>
    cases cs with
    | nil =>
      simp only [pyLower, List.map_cons, List.map_nil]
      constructor
      · intro h
        obtain ⟨h1, _⟩ := List.cons.inj h
        rcases lowerC_eq_n_iff.mp h1 with h110 | h78
        · exact Or.inl (by rw [h110])
        · exact Or.inr (by rw [h78])
      · rintro (h | h) <;> (obtain ⟨h1, -⟩ := List.cons.inj h) <;> subst h1 <;> decide
    | cons d ds =>
      simp only [pyLower, List.map_cons]
      constructor
      · intro h
        obtain ⟨_, h2⟩ := List.cons.inj h
        exact absurd h2 (by simp)
      · rintro (h | h) <;> (obtain ⟨_, h2⟩ := List.cons.inj h) <;> simp at h2

/-! Per-file behaviour of replace_in_files. -/

theorem processFile_spec (reps : List (List Nat × List Nat)) (f : PyFile)
    (hp : f.present = true) (hd : f.decodeOk = true) :
    ((processFile reps f).2 = true ↔ applyReps reps f.text ≠ f.text) ∧
    (processFile reps f).1.text = applyReps reps f.text ∧
    (applyReps reps f.text = f.text → processFile reps f = (f, false)) := by
  rw [processFile, if_neg (by simp [hp]), if_neg (by simp [hd])]
  by_cases hch : applyReps reps f.text = f.text
  · rw [if_neg (by simpa using hch)]
    refine ⟨by simp [hch], by simp [hch], fun _ => rfl⟩
  · rw [if_pos hch]
    exact ⟨by simp [hch], rfl, fun h => absurd h hch⟩

/-! Equivalence of the two regex substitutions with the local boundary
description used by the amended C6. -/

theorem sub2_step2 (c : Nat) {d : Nat} (r : List Nat) (h : isUpper d = false) :
    sub2 (c :: d :: r) = c :: sub2 (d :: r) := by
  rw [sub2, if_neg (by simp [h])]

theorem sub2_hit {c d : Nat} (r : List Nat)
    (h : ((isLower c || isDigit c) && isUpper d) = true) :
    sub2 (c :: d :: r) = c :: 45 :: d :: sub2 r := by
  rw [sub2, if_pos h]

theorem sub1_head_tail (x : Nat) (xs : List Nat) :
    sub1 (x :: xs) = x :: (sub1 (x :: xs)).tail := by
  cases xs with
  | nil => rfl
  | cons d rest =>
    by_cases h : (x != 10 && isUpper d && !(rest.takeWhile isLower).isEmpty) = true
    · rw [sub1_cons2, if_pos h]
      rfl
    · rw [sub1_cons2, if_neg h]
      rfl

theorem kebabIns_cons2 (c d : Nat) (rest : List Nat) :
    kebabIns (c :: d :: rest)
      = if insBoundary c d rest then c :: 45 :: kebabIns (d :: rest)
        else c :: kebabIns (d :: rest) := rfl

theorem kebabIns_head_tail (x : Nat) (xs : List Nat) :
    kebabIns (x :: xs) = x :: (kebabIns (x :: xs)).tail := by
  cases xs with
  | nil => rfl
  | cons d rest =>
    by_cases h : insBoundary x d rest = true
    · rw [kebabIns_cons2, if_pos h]
      rfl
    · rw [kebabIns_cons2, if_neg h]
      rfl

theorem mem_takeWhile_lower : ∀ (l : List Nat) (c : Nat),
    c ∈ l.takeWhile isLower → isLower c = true := by
  intro l
  induction l with
  | nil =>
    intro c hc
    simp at hc
  | cons x xs ih =>
    intro c hc
    rw [List.takeWhile_cons] at hc
    by_cases hx : isLower x = true
    · rw [if_pos hx] at hc
      rcases List.mem_cons.mp hc with rfl | hc2
      · exact hx
      · exact ih c hc2
    · rw [if_neg hx] at hc
      simp at hc

/-- The boundary test of the amended C6, phrased through the leading
lowercase run of the remainder. -/
theorem insBoundary_eq (c d : Nat) (rest : List Nat) :
    insBoundary c d rest
      = (isUpper d && ((isLower c || isDigit c)
          || (c != 10 && !(rest.takeWhile isLower).isEmpty))) := by
  cases rest with
  | nil => simp [insBoundary]
  | cons e r2 =>
    rw [List.takeWhile_cons]
    by_cases he : isLower e = true
    · rw [if_pos he]
      simp [insBoundary, he]
    · rw [if_neg he]
      simp [insBoundary, he]

/-- Scanning a lowercase run in front of an already substituted remainder:
the second substitution produces exactly the local insertions. -/
theorem sub2_run_walk (rem : List Nat)
    (ha : sub2 (sub1 rem) = kebabIns rem)
    (hb : isUpper rem.headI = true → sub2 ((sub1 rem).tail) = (kebabIns rem).tail) :
    ∀ run : List Nat, (∀ c ∈ run, isLower c = true) →
    sub2 (run ++ sub1 rem) = kebabIns (run ++ rem) := by
  intro run
  induction run with
  | nil =>
    intro _
    simpa using ha
  | cons l run2 ih =>
    intro hrun
    have hl : isLower l = true := hrun l (by simp)
    cases run2 with
    | nil =>
      simp only [List.cons_append, List.nil_append]
      cases rem with
      | nil => rfl
      | cons r0 rem2 =>
        by_cases hr0 : isUpper r0 = true
        · rw [sub1_head_tail r0 rem2]
          rw [sub2_hit _ (by simp [hl, hr0])]
          rw [hb hr0]
          rw [kebabIns_cons2, if_pos (by rw [insBoundary_eq]; simp [hr0, hl])]
          rw [← kebabIns_head_tail r0 rem2]
        · have hr0f : isUpper r0 = false := Bool.eq_false_iff.mpr hr0
          rw [sub1_head_tail r0 rem2]
          rw [sub2_step2 l _ hr0f]
          rw [← sub1_head_tail r0 rem2, ha]
          rw [kebabIns_cons2, if_neg (by rw [insBoundary_eq]; simp [hr0f])]
    | cons l2 run3 =>
      have hl2 : isLower l2 = true := hrun l2 (by simp)
      have ih2 := ih fun c hc => hrun c (by simp [hc])
      simp only [List.cons_append] at ih2 ⊢
      rw [sub2_step2 l _ (isLower_isUpper hl2)]
      rw [ih2]
      rw [kebabIns_cons2,
        if_neg (by rw [insBoundary_eq]; simp [isLower_isUpper hl2])]

/-- The combined effect of the two regex substitutions coincides with the
local boundary insertion, by strong induction on the length. -/
theorem sub1_sub2_master : ∀ (n : Nat) (s : List Nat), s.length ≤ n →
    sub2 (sub1 s) = kebabIns s ∧
    (isUpper s.headI = true → sub2 ((sub1 s).tail) = (kebabIns s).tail) := by
  intro n
  induction n with
  | zero =>
    intro s h
    have hs : s = [] := List.length_eq_zero.mp (Nat.le_zero.mp h)
    subst hs
    exact ⟨rfl, fun _ => rfl⟩
  | succ n ih =>
    intro s hlen
    match s with
    | [] => exact ⟨rfl, fun _ => rfl⟩
    | [c] => exact ⟨rfl, fun _ => rfl⟩
    | c :: d :: rest =>
      simp only [List.length_cons] at hlen
      have hdr := ih (d :: rest) (by simp only [List.length_cons]; omega)
      have hrem := ih (rest.dropWhile isLower)
        (Nat.le_trans (length_dropWhile_le _ _) (by omega))
      by_cases hM : (c != 10 && isUpper d && !(rest.takeWhile isLower).isEmpty) = true
      · have hM2 := hM
        rw [Bool.and_eq_true, Bool.and_eq_true] at hM2
        obtain ⟨⟨hc10, hd⟩, hMt⟩ := hM2
        have htne : rest.takeWhile isLower ≠ [] := by
          intro h0
          rw [h0] at hMt
          simp at hMt
        obtain ⟨e, A2, hA⟩ : ∃ e A2, rest.takeWhile isLower = e :: A2 := by
          cases h0 : rest.takeWhile isLower with
          | nil => exact absurd h0 htne
          | cons e A2 => exact ⟨e, A2, rfl⟩
        have hAlow : ∀ x ∈ rest.takeWhile isLower, isLower x = true :=
          fun x hx => mem_takeWhile_lower rest x hx
        have hle : isLower e = true := hAlow e (by rw [hA]; simp)
        have hIB : insBoundary c d rest = true := by
          rw [insBoundary_eq, Bool.and_eq_true]
          refine ⟨hd, ?_⟩
          rw [Bool.or_eq_true]
          exact Or.inr (by rw [Bool.and_eq_true]; exact ⟨hc10, hMt⟩)
        obtain ⟨rest2, hrest2⟩ : ∃ rest2, rest = e :: rest2 := by
          refine ⟨A2 ++ rest.dropWhile isLower, ?_⟩
          conv_lhs => rw [← List.takeWhile_append_dropWhile (p := isLower) (l := rest)]
          rw [hA, List.cons_append]
        have hdrest : kebabIns (d :: rest) = d :: kebabIns rest := by
          conv_lhs => rw [hrest2]
          rw [kebabIns_cons2,
            if_neg (by rw [insBoundary_eq]; simp [isLower_isUpper hle]), ← hrest2]
        have hGmid : sub2 (d :: (rest.takeWhile isLower
              ++ sub1 (rest.dropWhile isLower)))
            = d :: kebabIns (rest.takeWhile isLower ++ rest.dropWhile isLower) := by
          rw [hA]
          simp only [List.cons_append]
          rw [sub2_step2 d _ (isLower_isUpper hle)]
          have hw := sub2_run_walk (rest.dropWhile isLower) hrem.1 hrem.2 (e :: A2)
            (by rw [← hA]; exact hAlow)
          simp only [List.cons_append] at hw
          rw [hw]
        constructor
        · rw [sub1_cons2, if_pos hM]
          simp only [List.cons_append]
          rw [sub2_step2 c _ (by decide : isUpper 45 = false)]
          rw [sub2_step _ (by decide : (isLower 45 || isDigit 45) = false)]
          rw [hGmid, List.takeWhile_append_dropWhile]
          rw [kebabIns_cons2, if_pos hIB, hdrest]
        · intro _
          rw [sub1_cons2, if_pos hM]
          simp only [List.tail_cons, List.cons_append]
          rw [sub2_step _ (by decide : (isLower 45 || isDigit 45) = false)]
          rw [hGmid, List.takeWhile_append_dropWhile]
          rw [kebabIns_cons2, if_pos hIB, hdrest]
          simp only [List.tail_cons]
      · have hsub1 : sub1 (c :: d :: rest) = c :: sub1 (d :: rest) := by
          rw [sub1_cons2, if_neg hM]
        constructor
        · by_cases hS : ((isLower c || isDigit c) && isUpper d) = true
          · have hS2 := hS
            rw [Bool.and_eq_true] at hS2
            obtain ⟨hS1, hd⟩ := hS2
            rw [hsub1, sub1_head_tail d rest]
            rw [sub2_hit _ hS]
            rw [hdr.2 hd]
            rw [← kebabIns_head_tail d rest]
            rw [kebabIns_cons2,
              if_pos (by
                rw [insBoundary_eq, Bool.and_eq_true]
                exact ⟨hd, by rw [Bool.or_eq_true]; exact Or.inl hS1⟩)]
          · have hIBf : insBoundary c d rest = false := by
              rw [insBoundary_eq]
              apply Bool.eq_false_iff.mpr
              intro hbad
              rw [Bool.and_eq_true, Bool.or_eq_true, Bool.and_eq_true] at hbad
              obtain ⟨hd, hor⟩ := hbad
              rcases hor with h1 | ⟨h10, hT⟩
              · exact hS (by rw [Bool.and_eq_true]; exact ⟨h1, hd⟩)
              · exact hM (by
                  rw [Bool.and_eq_true, Bool.and_eq_true]
                  exact ⟨⟨h10, hd⟩, hT⟩)
            rw [hsub1, sub1_head_tail d rest]
            rw [sub2, if_neg (by simp [hS])]
            rw [← sub1_head_tail d rest, hdr.1]
            rw [kebabIns_cons2, if_neg (by simp [hIBf])]
        · intro hUc
          have hUc2 : isUpper c = true := hUc
          have hc10 : (c != 10) = true := isUpper_ne_newline hUc2
          have hIBf : insBoundary c d rest = false := by
            rw [insBoundary_eq]
            apply Bool.eq_false_iff.mpr
            intro hbad
            rw [Bool.and_eq_true, Bool.or_eq_true, Bool.and_eq_true] at hbad
            obtain ⟨hd, hor⟩ := hbad
            rcases hor with h1 | ⟨h10, hT⟩
            · rw [isUpper_isLower hUc2, isUpper_isDigit hUc2] at h1
              simp at h1
            · exact hM (by
                rw [Bool.and_eq_true, Bool.and_eq_true]
                exact ⟨⟨h10, hd⟩, hT⟩)
          rw [hsub1]
          simp only [List.tail_cons]
          rw [hdr.1]
          rw [kebabIns_cons2, if_neg (by simp [hIBf])]
          simp only [List.tail_cons]

/-- The two regex substitutions of to_kebab_case insert a hyphen between
two adjacent characters exactly when the second is uppercase and either
the first is a lowercase letter or digit, or the first is any non-newline
character and the next character is lowercase. -/
theorem sub1_sub2_eq_kebabIns (s : List Nat) : sub2 (sub1 s) = kebabIns s :=
  (sub1_sub2_master s.length s (Nat.le_refl _)).1

/-! Claim theorems. -/

/-- C1, counterexample: the PascalCase derivation does not leave the
non-first characters of each word exactly as given.  On the input fooBar
the script returns Foobar, while preserving the rest of the word, as the
claim states, would give FooBar. -/
theorem c1_counterexample :
    to_pascal_case (pystr "fooBar") ≠ pascalClaim (pystr "fooBar") ∧
    to_pascal_case (pystr "fooBar") = pystr "Foobar" ∧
    pascalClaim (pystr "fooBar") = pystr "FooBar" :=
  ⟨by decide, by decide, by decide⟩

/-- C1, amended: for every input string, the PascalCase derivation splits
the input on runs of hyphen, underscore or whitespace, uppercases the
first character of each resulting word and lowercases every other
character of each word; equivalently, it deletes the separator characters,
uppercases each word-initial character and lowercases all the others. -/
theorem c1_pascal_characterwise (s : List Nat) :
    to_pascal_case s = pascalFlat true s :=
  (pascalFlat_aux s).1.symm

/-- C2, counterexample: the name a-b is in kebab-case form, lowercase
words joined by single hyphens with no digits at all, yet feeding it
through PascalCase and back through kebab-case yields ab, not a-b. -/
theorem c2_counterexample :
    (∀ w ∈ [[97], [98]], w ≠ [] ∧ ∀ c ∈ w, isLower c = true) ∧
    hyJoin [[97], [98]] = pystr "a-b" ∧
    to_kebab_case (to_pascal_case (pystr "a-b")) = pystr "ab" ∧
    to_kebab_case (to_pascal_case (pystr "a-b")) ≠ pystr "a-b" :=
  ⟨by decide, by decide, by decide, by decide⟩

/-- C2, amended: for every kebab-case name whose hyphen-separated words
consist of lowercase letters and each have at least two characters,
applying the PascalCase derivation and then the kebab-case derivation
yields the original name. -/
theorem c2_roundtrip (ws : List (List Nat))
    (hg : ∀ w ∈ ws, 2 ≤ w.length ∧ ∀ c ∈ w, isLower c = true) :
    to_kebab_case (to_pascal_case (hyJoin ws)) = hyJoin ws := by
  cases ws with
  | nil => rfl
  | cons w ws2 =>
    rw [to_pascal_case, splitSep_hyJoin _ (by simp) hg]
    rw [to_kebab_case]
    rw [sub1_capFlat (w :: ws2).length _ (Nat.le_refl _) hg]
    rw [sub2_altJoin hg]
    rw [pyLower_hyJoin_cap _ fun v hv => (hg v hv).2]
    rw [pyReplace_single, pyReplace_single]
    have hch := hyJoin_chars (w :: ws2) fun v hv => (hg v hv).2
    have h95 : ∀ c ∈ hyJoin (w :: ws2), c ≠ 95 := by
      intro c hc
      rcases hch c hc with h | h
      · omega
      · simp [isLower] at h
        omega
    have h32 : ∀ c ∈ hyJoin (w :: ws2), c ≠ 32 := by
      intro c hc
      rcases hch c hc with h | h
      · omega
      · simp [isLower] at h
        omega
    rw [replaceC_id h95]
    exact replaceC_id h32

/-- C2, witness at the words my and feature. -/
theorem c2_witness :
    (∀ w ∈ [pystr "my", pystr "feature"], 2 ≤ w.length ∧ ∀ c ∈ w, isLower c = true) ∧
    to_kebab_case (to_pascal_case (hyJoin [pystr "my", pystr "feature"]))
      = hyJoin [pystr "my", pystr "feature"] :=
  ⟨by decide, c2_roundtrip [pystr "my", pystr "feature"] (by decide)⟩

/-- C3, counterexample: with the one-entry table replacing ab by b, in
which the search string ab is not a substring of its replacement b, the
pass sends aab to ab and a second application sends ab to b, so the pass
is not idempotent under the claimed precondition. -/
theorem c3_counterexample :
    occursIn (pystr "ab") (pystr "b") = false ∧
    applyReps [(pystr "ab", pystr "b")] (pystr "aab") = pystr "ab" ∧
    applyReps [(pystr "ab", pystr "b")]
        (applyReps [(pystr "ab", pystr "b")] (pystr "aab"))
      ≠ applyReps [(pystr "ab", pystr "b")] (pystr "aab") :=
  ⟨by decide, by decide, by decide⟩

/-- C3, amended: applying the sequential whole-text replacement pass twice
yields the same result as applying it once, provided the once-applied
result contains no occurrence of any search string of the table; the
condition that no search string is a substring of its own replacement is
not sufficient. -/
theorem c3_idempotent (reps : List (List Nat × List Nat)) (t : List Nat)
    (h : ∀ p ∈ reps, occursIn p.1 (applyReps reps t) = false) :
    applyReps reps (applyReps reps t) = applyReps reps t :=
  applyReps_of_no_occur reps (applyReps reps t) h

/-- C3, witness at a table replacing todo by mything on a text with one
occurrence. -/
theorem c3_witness :
    (∀ p ∈ [(pystr "todo", pystr "mything")],
      occursIn p.1
        (applyReps [(pystr "todo", pystr "mything")] (pystr "a todo z")) = false) ∧
    applyReps [(pystr "todo", pystr "mything")]
        (applyReps [(pystr "todo", pystr "mything")] (pystr "a todo z"))
      = applyReps [(pystr "todo", pystr "mything")] (pystr "a todo z") :=
  ⟨by decide,
    c3_idempotent [(pystr "todo", pystr "mything")] (pystr "a todo z") (by decide)⟩

/-- C4, counterexample: on the confirmation input N, an input other than
the exact string n, the run still aborts, because the script strips and
lowercases the answer before comparing it with n. -/
theorem c4_counterexample :
    pystr "N" ≠ pystr "n" ∧
    (main_model [⟨[pystr "pom.xml"], pystr "x"⟩] (pystr "my-qbit") (pystr "N")
        (pystr "com.acme") (pystr "qbit-my-qbit") (pystr "qrun-io")).2
      = Outcome.aborted :=
  ⟨by decide, by decide⟩

/-- C4, amended: when the build descriptor is present, the run aborts,
performing no mutation, exactly when the confirmation input with leading
and trailing whitespace removed is the string n or the string N; every
other input proceeds. -/
theorem c4_abort_iff (fs : List FSFile) (q conf gid aid org : List Nat)
    (h : pomExists fs = true) :
    ((main_model fs q conf gid aid org).2 = Outcome.aborted ↔
      (pyStrip conf = pystr "n" ∨ pyStrip conf = pystr "N")) ∧
    ((main_model fs q conf gid aid org).2 = Outcome.aborted →
      (main_model fs q conf gid aid org).1 = fs) := by
  have hn : pystr "n" = [110] := by decide
  have hN : pystr "N" = [78] := by decide
  rw [main_model, if_neg (by simp [h])]
  by_cases hc : pyLower (pyStrip conf) = pystr "n"
  · rw [if_pos hc]
    rw [hn] at hc
    refine ⟨⟨fun _ => ?_, fun _ => rfl⟩, fun _ => rfl⟩
    rw [hn, hN]
    exact pyLower_eq_n_iff.mp hc
  · rw [if_neg hc]
    refine ⟨⟨fun habs => Outcome.noConfusion habs, ?_⟩,
      fun habs => Outcome.noConfusion habs⟩
    rintro (h1 | h1)
    · exact absurd (by rw [h1]; decide) hc
    · exact absurd (by rw [h1]; decide) hc

/-- C4, witness at the input consisting of n surrounded by spaces. -/
theorem c4_witness :
    pomExists [⟨[pystr "pom.xml"], pystr "x"⟩] = true ∧
    (((main_model [⟨[pystr "pom.xml"], pystr "x"⟩] (pystr "q") (pystr " n ")
        (pystr "g") (pystr "a") (pystr "o")).2 = Outcome.aborted ↔
      (pyStrip (pystr " n ") = pystr "n" ∨ pyStrip (pystr " n ") = pystr "N")) ∧
    ((main_model [⟨[pystr "pom.xml"], pystr "x"⟩] (pystr "q") (pystr " n ")
        (pystr "g") (pystr "a") (pystr "o")).2 = Outcome.aborted →
      (main_model [⟨[pystr "pom.xml"], pystr "x"⟩] (pystr "q") (pystr " n ")
        (pystr "g") (pystr "a") (pystr "o")).1
        = [⟨[pystr "pom.xml"], pystr "x"⟩])) :=
  ⟨by decide, c4_abort_iff _ _ _ _ _ _ (by decide)⟩

/-- C5, counterexample: the input 123 is valid, nonempty with the nonempty
PascalCase form 123, yet the first character of its camelCase form is the
digit 1 and not a lowercase letter. -/
theorem c5_counterexample :
    pystr "123" ≠ [] ∧ to_pascal_case (pystr "123") ≠ [] ∧
    to_camel_case (pystr "123") = pystr "123" ∧
    isLower (to_camel_case (pystr "123")).headI = false :=
  ⟨by decide, by decide, by decide, by decide⟩

/-- C5, amended: whenever the PascalCase form of an input is nonempty, the
camelCase form is the PascalCase form with its first character lowercased
and its remainder unchanged; that first character is never an uppercase
letter, and it is a lowercase letter whenever the PascalCase form begins
with a letter. -/
theorem c5_camel_shape (x : List Nat) (c : Nat) (cs : List Nat)
    (h : to_pascal_case x = c :: cs) :
    to_camel_case x = lowerC c :: cs ∧ isUpper (lowerC c) = false ∧
    ((isUpper c || isLower c) = true → isLower (lowerC c) = true) := by
  refine ⟨?_, isUpper_lowerC c, ?_⟩
  · rw [to_camel_case, h]
  · intro halpha
    have halpha2 : isUpper c = true ∨ isLower c = true := by simpa using halpha
    rcases halpha2 with hu | hl
    · rw [lowerC, if_pos hu]
      simp [isUpper] at hu
      simp [isLower]
      omega
    · rw [lowerC_of_isLower hl]
      exact hl

/-- C5, witness at the input my-qbit, whose PascalCase form is MyQbit. -/
theorem c5_witness :
    to_pascal_case (pystr "my-qbit") = 77 :: pystr "yQbit" ∧
    (to_camel_case (pystr "my-qbit") = lowerC 77 :: pystr "yQbit" ∧
      isUpper (lowerC 77) = false ∧
      ((isUpper 77 || isLower 77) = true → isLower (lowerC 77) = true)) :=
  ⟨by decide, c5_camel_shape (pystr "my-qbit") 77 (pystr "yQbit") (by decide)⟩

/-- C6, counterexample: both clauses of the claim fail on the script.  On
my-Qbit the script inserts a hyphen after the hyphen, an ordinary
character that is neither a lowercase/digit run nor an uppercase run, so
the insertion is not at the described case boundaries; and on an input
containing a tab the script leaves the tab in place, while replacing every
whitespace character, as the claim states, would produce a hyphen. -/
theorem c6_counterexample :
    to_kebab_case (pystr "my-Qbit") ≠ kebabClaim (pystr "my-Qbit") ∧
    to_kebab_case (pystr "my-Qbit") = pystr "my--qbit" ∧
    kebabClaim (pystr "my-Qbit") = pystr "my-qbit" ∧
    to_kebab_case (pystr "a\tb") ≠ kebabClaim (pystr "a\tb") ∧
    to_kebab_case (pystr "a\tb") = pystr "a\tb" ∧
    kebabClaim (pystr "a\tb") = pystr "a-b" :=
  ⟨by decide, by decide, by decide, by decide, by decide, by decide⟩

/-- C6, amended: for every input string, the kebab-case derivation inserts
a hyphen between two adjacent characters exactly when the second is an
uppercase letter and either the first is a lowercase letter or digit, or
the first is any character other than a newline (not only an uppercase
run, as described) and the character after the uppercase letter is
lowercase; it then replaces every underscore and every space character,
and only the space character among the whitespace characters, with a
hyphen, and lowercases the whole result. -/
theorem c6_kebab_space_only (s : List Nat) : to_kebab_case s = kebabAmended s := by
  rw [to_kebab_case, kebabAmended, sub1_sub2_eq_kebabIns, pyReplace_single,
    pyReplace_single]
  simp only [replaceC, pyLower, List.map_map]
  exact List.map_congr_left fun x _ => lowerC_sep_comm x

/-- C7: during content substitution every present file that decodes as
text is marked written exactly when the replacement pass changes its text;
its text after the step is the replaced text, and a file whose text is
unchanged by the full table is returned intact and unwritten. -/
theorem c7_write_iff_changed (reps : List (List Nat × List Nat))
    (files : List PyFile) (i : Nat) (hi : i < files.length)
    (hri : i < (replace_in_files reps files).length)
    (hp : (files.get ⟨i, hi⟩).present = true)
    (hd : (files.get ⟨i, hi⟩).decodeOk = true) :
    (((replace_in_files reps files).get ⟨i, hri⟩).2 = true ↔
      applyReps reps (files.get ⟨i, hi⟩).text ≠ (files.get ⟨i, hi⟩).text) ∧
    ((replace_in_files reps files).get ⟨i, hri⟩).1.text
      = applyReps reps (files.get ⟨i, hi⟩).text ∧
    (applyReps reps (files.get ⟨i, hi⟩).text = (files.get ⟨i, hi⟩).text →
      (replace_in_files reps files).get ⟨i, hri⟩ = (files.get ⟨i, hi⟩, false)) := by
  have hmap : (replace_in_files reps files).get ⟨i, hri⟩
      = processFile reps (files.get ⟨i, hi⟩) := by
    simp only [replace_in_files, List.get_eq_getElem, List.getElem_map]
  rw [hmap]
  exact processFile_spec reps (files.get ⟨i, hi⟩) hp hd

/-- C7, witness at a one-file list whose text contains the token Todo. -/
theorem c7_witness :
    (([⟨pystr "A.java", true, true, pystr "x Todo y"⟩] : List PyFile).get
        ⟨0, by decide⟩).present = true ∧
    ((((replace_in_files [(pystr "Todo", pystr "My")]
          [⟨pystr "A.java", true, true, pystr "x Todo y"⟩]).get ⟨0, by decide⟩).2 = true ↔
        applyReps [(pystr "Todo", pystr "My")]
            (([⟨pystr "A.java", true, true, pystr "x Todo y"⟩] : List PyFile).get
              ⟨0, by decide⟩).text
          ≠ (([⟨pystr "A.java", true, true, pystr "x Todo y"⟩] : List PyFile).get
              ⟨0, by decide⟩).text) ∧
      ((replace_in_files [(pystr "Todo", pystr "My")]
          [⟨pystr "A.java", true, true, pystr "x Todo y"⟩]).get ⟨0, by decide⟩).1.text
        = applyReps [(pystr "Todo", pystr "My")]
            (([⟨pystr "A.java", true, true, pystr "x Todo y"⟩] : List PyFile).get
              ⟨0, by decide⟩).text ∧
      (applyReps [(pystr "Todo", pystr "My")]
          (([⟨pystr "A.java", true, true, pystr "x Todo y"⟩] : List PyFile).get
            ⟨0, by decide⟩).text
          = (([⟨pystr "A.java", true, true, pystr "x Todo y"⟩] : List PyFile).get
              ⟨0, by decide⟩).text →
        (replace_in_files [(pystr "Todo", pystr "My")]
            [⟨pystr "A.java", true, true, pystr "x Todo y"⟩]).get ⟨0, by decide⟩
          = (([⟨pystr "A.java", true, true, pystr "x Todo y"⟩] : List PyFile).get
              ⟨0, by decide⟩, false))) :=
  ⟨by decide,
    c7_write_iff_changed [(pystr "Todo", pystr "My")]
      [⟨pystr "A.java", true, true, pystr "x Todo y"⟩] 0
      (by decide) (by decide) (by decide) (by decide)⟩

/-- C8: when the build descriptor pom.xml is absent from the repository
root, main terminates at once with the missing-descriptor outcome and the
filesystem is returned unchanged: no directory moved, no file renamed, no
content changed. -/
theorem c8_missing_pom (fs : List FSFile) (q conf gid aid org : List Nat)
    (h : pomExists fs = false) :
    main_model fs q conf gid aid org = (fs, Outcome.missingPom) := by
  rw [main_model, if_pos h]

/-- C8, witness at a one-file tree without pom.xml. -/
theorem c8_witness :
    pomExists [⟨[pystr "README.md"], pystr "hello Todo"⟩] = false ∧
    main_model [⟨[pystr "README.md"], pystr "hello Todo"⟩] (pystr "my-qbit")
        (pystr "") (pystr "com.acme") (pystr "qbit-x") (pystr "qrun-io")
      = ([⟨[pystr "README.md"], pystr "hello Todo"⟩], Outcome.missingPom) :=
  ⟨by decide, c8_missing_pom _ _ _ _ _ _ (by decide)⟩

/-- C9: on the input my-feature the four derivations produce exactly
my-feature, MyFeature, myFeature and myfeature. -/
theorem c9_my_feature_forms :
    to_kebab_case (pystr "my-feature") = pystr "my-feature" ∧
    to_pascal_case (pystr "my-feature") = pystr "MyFeature" ∧
    to_camel_case (pystr "my-feature") = pystr "myFeature" ∧
    to_package_name (pystr "my-feature") = pystr "myfeature" :=
  ⟨by decide, by decide, by decide, by decide⟩

/-- C10: the kebab-case derivation is idempotent: applying it to its own
output returns that output unchanged, because the output contains no
uppercase letter, no underscore and no space. -/
theorem c10_kebab_idempotent (s : List Nat) :
    to_kebab_case (to_kebab_case s) = to_kebab_case s := by
  have hch : ∀ c ∈ to_kebab_case s, isUpper c = false ∧ c ≠ 95 ∧ c ≠ 32 := by
    intro c hc
    rw [to_kebab_case, pyReplace_single, pyReplace_single] at hc
    rcases replaceC_chars c hc with h45 | ⟨hc2, hne32⟩
    · subst h45
      exact ⟨by decide, by decide, by decide⟩
    · rcases replaceC_chars c hc2 with h45 | ⟨hc3, hne95⟩
      · subst h45
        exact ⟨by decide, by decide, hne32⟩
      · exact ⟨pyLower_chars c hc3, hne95, hne32⟩
  conv_lhs => rw [to_kebab_case]
  rw [sub1_no_upper fun c hc => (hch c hc).1]
  rw [sub2_no_upper fun c hc => (hch c hc).1]
  rw [pyLower_no_upper fun c hc => (hch c hc).1]
  rw [pyReplace_single, pyReplace_single]
  rw [replaceC_id fun c hc => (hch c hc).2.1]
  exact replaceC_id fun c hc => (hch c hc).2.2
